import Mathlib

/-
Verification development for the SMILES validator repository.

The definitions below are a shallow embedding of the consolidated package
`src/smiles_checker` (chem/atomic.py, chem/structure.py,
validator/parser_manager.py, validator/yacc.py).  Python dictionaries keyed
by value-equal objects are modelled as insertion-ordered association lists
looked up by decidable equality (Python's frozen dataclasses hash and compare
by their field tuple, so dict lookup coincides with first-match lookup by
structural equality).  Python ints are `Int`; `None`-able fields are `Option`.
-/

set_option maxHeartbeats 1000000

namespace Smiles

/-- Subshell letters accepted by the configuration pattern in
`_parse_electron_configuration` (regex class `[spdf]`). -/
inductive Subshell
  | s
  | p
  | d
  | f
deriving DecidableEq, Repr

/-- Sort rank of a subshell letter, the dict literal
`{'s': 0, 'p': 1, 'd': 2, 'f': 3}` used in the sort keys of
`BracketAtom.__post_init__`. -/
def subshellIdx : Subshell → Nat
  | .s => 0
  | .p => 1
  | .d => 2
  | .f => 3

/-- `Atom._max_electrons_in_subshell`: capacity of each subshell type. -/
def _max_electrons_in_subshell : Subshell → Int
  | .s => 2
  | .p => 6
  | .d => 10
  | .f => 14

/-- One entry of the subshell mapping: ((principal quantum number, subshell
letter), electron count), as in the parsed configuration dict. -/
abbrev Entry := (Nat × Subshell) × Int

/-- Value of a decimal digit string, as Python's `int` on the digit groups
captured by the orbital regex. -/
def digitsToNat (ds : List Char) : Nat :=
  ds.foldl (fun acc c => 10 * acc + (c.toNat - 48)) 0

/-- Python `str.split()` with no separator (as used on the configuration
string): split on whitespace runs and drop empty pieces.  Implemented on the
character list with an accumulator carrying the current token reversed. -/
def splitTokensGo : List Char → List Char → List (List Char)
  | [], acc => if acc.isEmpty then [] else [acc.reverse]
  | c :: rest, acc =>
      if c.isWhitespace then
        if acc.isEmpty then splitTokensGo rest []
        else acc.reverse :: splitTokensGo rest []
      else splitTokensGo rest (c :: acc)

/-- Whitespace-run tokenisation of a string's characters. -/
def splitTokens (cs : List Char) : List (List Char) :=
  splitTokensGo cs []

/-- One orbital token, mirroring `re.match(r'(\d+)([spdf])(\d+)', orbital_str)`:
leading digits, one subshell letter, then digits; `re.match` anchors only at
the start, so trailing characters are ignored.  `none` models the silent skip
of tokens that do not match. -/
def parseOrbital (cs : List Char) : Option Entry :=
  let ds1 := cs.takeWhile Char.isDigit
  let rest1 := cs.dropWhile Char.isDigit
  if ds1.isEmpty then none
  else
    match rest1 with
    | [] => none
    | c :: rest2 =>
        let sub? : Option Subshell :=
          if c = 's' then some Subshell.s
          else if c = 'p' then some Subshell.p
          else if c = 'd' then some Subshell.d
          else if c = 'f' then some Subshell.f
          else none
        match sub? with
        | none => none
        | some sub =>
            let ds2 := rest2.takeWhile Char.isDigit
            if ds2.isEmpty then none
            else some ((digitsToNat ds1, sub), (digitsToNat ds2 : Int))

/-- Python dict assignment `m[k] = v`: replace the value when the key is
present, otherwise append the pair (dicts preserve insertion order). -/
def dictInsert {κ β : Type} [DecidableEq κ] (m : List (κ × β)) (k : κ) (v : β) :
    List (κ × β) :=
  if m.any (fun e => e.1 == k) then m.map (fun e => if e.1 == k then (k, v) else e)
  else m ++ [(k, v)]

/-- Python `m.get(k, dflt)`. -/
def dictGetD {κ β : Type} [DecidableEq κ] (m : List (κ × β)) (k : κ) (dflt : β) : β :=
  match m.find? (fun e => e.1 == k) with
  | some e => e.2
  | none => dflt

/-- Python `if k not in m: m[k] = v` (insert only when absent). -/
def dictSetDefault {κ β : Type} [DecidableEq κ] (m : List (κ × β)) (k : κ) (v : β) :
    List (κ × β) :=
  if m.any (fun e => e.1 == k) then m else m ++ [(k, v)]

/-- In-place update of the value stored under key `k`. -/
def dictModify {κ β : Type} [DecidableEq κ] (m : List (κ × β)) (k : κ) (f : β → β) :
    List (κ × β) :=
  m.map (fun e => if e.1 == k then (e.1, f e.2) else e)

/-- Python `m.pop(k)`: the stored value plus the map without the key, or
`none` (a `KeyError` at call sites) when the key is absent. -/
def dictPop {κ β : Type} [DecidableEq κ] (m : List (κ × β)) (k : κ) :
    Option (β × List (κ × β)) :=
  match m.find? (fun e => e.1 == k) with
  | some e => some (e.2, m.eraseP (fun e => e.1 == k))
  | none => none

/-- `_parse_electron_configuration`: split the configuration string on
whitespace and collect the orbital tokens into a dict.  The source first
strips a noble-gas shorthand such as `[Ne]` with `re.sub`; a standalone
bracketed token fails the orbital pattern and is skipped here, which has the
same effect for the space-separated configuration strings of the data asset,
so the strip is not modelled separately. -/
def _parse_electron_configuration (cfg : String) : List Entry :=
  (splitTokens cfg.toList).foldl
    (fun m tok =>
      match parseOrbital tok with
      | some kv => dictInsert m kv.1 kv.2
      | none => m)
    []

/-- Largest principal quantum number occurring in a subshell mapping;
`max([n for (n, _), _ in subshell_electrons_data])` (the source only
evaluates it on nonempty data, where the fold equals that maximum). -/
def maxN (m : List Entry) : Nat :=
  (m.map (fun e => e.1.1)).foldr max 0

/-- Ascending order on subshell entries by key, the
`key=lambda x: (x[0], {'s': 0, ...}[x[1]])` sort used when adding
electrons. -/
def keyLe (a b : Entry) : Prop :=
  a.1.1 < b.1.1 ∨ (a.1.1 = b.1.1 ∧ subshellIdx a.1.2 ≤ subshellIdx b.1.2)

instance : DecidableRel keyLe := fun a b => by
  unfold keyLe
  infer_instance

/-- Descending order on entries, for `sorted(..., reverse=True)` in the
electron-removal branch. -/
def keyGe (a b : Entry) : Prop := keyLe b a

instance : DecidableRel keyGe := fun a b => inferInstanceAs (Decidable (keyLe b a))

/-- Descending order on layer numbers, `sorted(list(_layers), reverse=True)`. -/
def natGe (a b : Nat) : Prop := b ≤ a

instance : DecidableRel natGe := fun a b => inferInstanceAs (Decidable (b ≤ a))

/-- `valency_layer` as derived in `_calculate_electron_properties`
(0 for an empty mapping via the early return). -/
def calcValencyLayer (m : List Entry) : Nat :=
  if m.isEmpty then 0 else maxN m

/-- `electrons_in_valency`: sum of counts whose layer is the valency layer. -/
def calcElectronsInValency (m : List Entry) : Int :=
  if m.isEmpty then 0
  else ((m.filter (fun e => e.1.1 == maxN m)).map (fun e => e.2)).sum

/-- `layers`: the distinct principal quantum numbers, sorted descending. -/
def calcLayers (m : List Entry) : List Nat :=
  if m.isEmpty then []
  else List.insertionSort natGe ((m.map (fun e => e.1.1)).dedup)

/-- `electrons_by_layers`: per-layer electron sums aligned with `layers`. -/
def calcElectronsByLayers (m : List Entry) : List Int :=
  (calcLayers m).map (fun n => ((m.filter (fun e => e.1.1 == n)).map (fun e => e.2)).sum)

/-- The `Atom` frozen dataclass of `chem/atomic.py`.  All fields take part in
the dataclass-generated equality and hash, including the derived ones.  The
parsed subshell mapping is stored as an association list; it is a function of
the configuration string, so comparing it listwise agrees with the frozenset
comparison of the source on constructed atoms. -/
structure Atom where
  symbol : String
  valency_layer : Nat
  electrons_in_valency : Int
  layers : List Nat
  electrons_by_layers : List Int
  electron_configuration : String
  aromatic : Bool
  subshell_electrons : List Entry
deriving DecidableEq, Repr

/-- `Atom.__post_init__`: parse the configuration and derive the shell
statistics (`_calculate_electron_properties`, split here into one definition
per derived field). -/
def mkAtom (symbol electron_configuration : String) (aromatic : Bool) : Atom :=
  let m := _parse_electron_configuration electron_configuration
  { symbol := symbol
    valency_layer := calcValencyLayer m
    electrons_in_valency := calcElectronsInValency m
    layers := calcLayers m
    electrons_by_layers := calcElectronsByLayers m
    electron_configuration := electron_configuration
    aromatic := aromatic
    subshell_electrons := m }

/-- `Atom.get_total_electrons_in_subshell`. -/
def get_total_electrons_in_subshell (a : Atom) (t : Subshell) : Int :=
  ((a.subshell_electrons.filter (fun e => e.1.2 == t)).map (fun e => e.2)).sum

/-- `Atom.get_electrons_in_specific_subshell` (0 when the pair is absent). -/
def get_electrons_in_specific_subshell (a : Atom) (n : Nat) (t : Subshell) : Int :=
  match a.subshell_electrons.find? (fun e => e.1.1 == n && e.1.2 == t) with
  | some e => e.2
  | none => 0

/-- Electron-removal loop of `BracketAtom.__post_init__` (`charge_effect < 0`):
entries arrive sorted outermost-first; each gives up
`min(electrons_to_remove, available)` electrons and is deleted when it reaches
zero; the loop breaks once nothing remains to remove. -/
def removeElectrons : List Entry → Int → List Entry
  | [], _ => []
  | e :: rest, k =>
      if k == 0 then e :: rest
      else
        let removed := min k e.2
        let v := e.2 - removed
        if v == 0 then removeElectrons rest (k - removed)
        else (e.1, v) :: removeElectrons rest (k - removed)

/-- First phase of the electron-addition branch: walk the entries (sorted
innermost-first) and top each up by
`min(electrons_to_add, capacity - current)`, breaking when nothing is left to
add.  Returns the updated entries and the electrons still to place. -/
def fillExisting : List Entry → Int → List Entry × Int
  | [], k => ([], k)
  | e :: rest, k =>
      if k == 0 then (e :: rest, k)
      else
        let add := min k (_max_electrons_in_subshell e.1.2 - e.2)
        let fr := fillExisting rest (k - add)
        ((e.1, e.2 + add) :: fr.1, fr.2)

/-- The `while electrons_to_add > 0` loop: each iteration opens the shell
`(current_n + 1, 's')` holding `min(electrons_to_add, 2)` electrons (2 is the
capacity of an `s` subshell).  Recursing on the count keeps the definition
structural. -/
def openGo (n : Nat) : Nat → List Entry
  | 0 => []
  | 1 => [((n + 1, Subshell.s), (1 : Int))]
  | j + 2 => ((n + 1, Subshell.s), (2 : Int)) :: openGo (n + 1) j

/-- New-shell loop on the remaining (nonnegative) `Int` count. -/
def openNewShells (n : Nat) (k : Int) : List Entry :=
  openGo n k.toNat

/-- Electron addition of `BracketAtom.__post_init__` (`charge_effect > 0`):
sort the existing subshells ascending, top them up, and if electrons remain
open new shells after the last sorted entry; when there were no entries at
all the source seeds `(1, 's') -> 0` and opens shells from layer 2. -/
def addElectrons (m : List Entry) (k : Int) : List Entry :=
  if 0 < (fillExisting (List.insertionSort keyLe m) k).2 then
    match (List.insertionSort keyLe m).getLast? with
    | some e =>
        (fillExisting (List.insertionSort keyLe m) k).1
          ++ openNewShells e.1.1 (fillExisting (List.insertionSort keyLe m) k).2
    | none =>
        ((1, Subshell.s), (0 : Int))
          :: openNewShells 1 (fillExisting (List.insertionSort keyLe m) k).2
  else (fillExisting (List.insertionSort keyLe m) k).1

/-- Claim-side rendering of the top-up phase: each subshell, visited in the
given (ascending) order, is filled up to its maximum capacity before moving
to the next, consuming the difference from the pool of electrons to add. -/
def specFillExisting : List Entry → Int → List Entry × Int
  | [], k => ([], k)
  | e :: rest, k =>
      let newCount := min (e.2 + k) (_max_electrons_in_subshell e.1.2)
      let fr := specFillExisting rest (k - (newCount - e.2))
      ((e.1, newCount) :: fr.1, fr.2)

/-- Claim-side rendering of the new-shell phase in closed form: shell `i`
(counting from 0) sits at principal quantum number `n + 1 + i`, is an `s`
subshell, and absorbs `min(remaining, 2)` electrons; `ceil(k / 2)` shells are
opened in total. -/
def specNewShells (n : Nat) (k : Nat) : List Entry :=
  (List.range ((k + 1) / 2)).map
    (fun i => ((n + 1 + i, Subshell.s), ((min (k - 2 * i) 2 : Nat) : Int)))

/-- Claim-side rendering of the whole addition: top up the existing
subshells innermost-to-outermost, then open new shells starting at the next
principal quantum number after the outermost existing layer. -/
def specAddElectrons (m : List Entry) (k : Int) : List Entry :=
  (specFillExisting (List.insertionSort keyLe m) k).1
    ++ specNewShells (maxN m)
        (specFillExisting (List.insertionSort keyLe m) k).2.toNat

/-- The `BracketAtom` dataclass: the inherited `Atom` data plus the optional
bracket annotations.  (`solo_valency` is set with `object.__setattr__` and is
not a dataclass field, so it takes no part in equality and is not stored.) -/
structure BracketAtom where
  base : Atom
  hidrogens : Option Int
  charge : Option Int
  isotope : Option Int
  chiral : Option Int
  mol_map : Option Int
deriving DecidableEq, Repr

/-- `BracketAtom.__post_init__`: build the underlying atom, then, when a
charge is present, redistribute electrons (`charge_effect = -charge`: a
positive charge removes electrons outermost-first, a negative charge adds
them innermost-first) and recompute the derived shell statistics from the new
mapping. -/
def mkBracketAtom (symbol electron_configuration : String) (aromatic : Bool)
    (hidrogens charge isotope chiral mol_map : Option Int) : BracketAtom :=
  let a := mkAtom symbol electron_configuration aromatic
  match charge with
  | none =>
      { base := a, hidrogens := hidrogens, charge := charge, isotope := isotope,
        chiral := chiral, mol_map := mol_map }
  | some c =>
      let m2 :=
        if 0 < c then removeElectrons (List.insertionSort keyGe a.subshell_electrons) c
        else if c < 0 then addElectrons a.subshell_electrons (-c)
        else a.subshell_electrons
      { base :=
          { a with
            valency_layer := calcValencyLayer m2
            electrons_in_valency := calcElectronsInValency m2
            layers := calcLayers m2
            electrons_by_layers := calcElectronsByLayers m2
            subshell_electrons := m2 }
        hidrogens := hidrogens, charge := charge, isotope := isotope,
        chiral := chiral, mol_map := mol_map }

/-- `BracketAtom._octate_rule`: duet (exactly 2) at valency layer 1,
octet (exactly 8) otherwise. -/
def _octate_rule (ba : BracketAtom) (electrons : Int) : Bool :=
  if ba.base.valency_layer = 1 then electrons == 2 else electrons == 8

/-- `BracketAtom.compute_valency(bonds)`: effective valence electrons are
`electrons_in_valency + (hidrogens or 0) + bonds`, checked against the
duet/octet rule.  The source method only reads fields. -/
def compute_valency (ba : BracketAtom) (bonds : Int) : Bool :=
  _octate_rule ba
    (ba.base.electrons_in_valency +
      (match ba.hidrogens with
       | some h => h
       | none => 0) + bonds)

/-- The dataclass-generated `Atom.__eq__` of `chem/atomic.py`: both operands
of the same class and the full field tuple equal; structure equality is
exactly that tuple comparison. -/
def atomEq (a b : Atom) : Bool := decide (a = b)

/-- `BracketAtom.__eq__` of `chem/atomic.py`: the inherited field comparison
plus the five bracket annotations. -/
def bracketAtomEq (a b : BracketAtom) : Bool :=
  atomEq a.base b.base
    && decide (a.hidrogens = b.hidrogens)
    && decide (a.charge = b.charge)
    && decide (a.isotope = b.isotope)
    && decide (a.chiral = b.chiral)
    && decide (a.mol_map = b.mol_map)

/-- An atom occurrence as the graph and parser manager see it: either a plain
`Atom` or a `BracketAtom`. -/
inductive PyAtom
  | plain (a : Atom)
  | bracket (b : BracketAtom)
deriving DecidableEq, Repr

/-- Python `==` between atom objects.  Same class: the dataclass field
comparison.  Mixed classes: `BracketAtom.__eq__` returns `NotImplemented`
(its `isinstance` guard fails) and the dataclass `Atom.__eq__` also returns
`NotImplemented` (its strict class check fails), so Python falls back to
identity, which is false for the distinct occurrences compared here. -/
def pyAtomEq : PyAtom → PyAtom → Bool
  | .plain a, .plain b => atomEq a b
  | .bracket a, .bracket b => bracketAtomEq a b
  | .plain _, .bracket _ => false
  | .bracket _, .plain _ => false

/-- `isinstance(atom, BracketAtom)`. -/
def isBracketAtom : PyAtom → Bool
  | .plain _ => false
  | .bracket _ => true

/-- Projection used for the `isinstance` filter in `check_valency_for_aba`. -/
def bracketOf : PyAtom → Option BracketAtom
  | .plain _ => none
  | .bracket b => some b

/-- The `.aromatic` attribute of either kind of atom. -/
def pyAromatic : PyAtom → Bool
  | .plain a => a.aromatic
  | .bracket b => b.base.aromatic

/-- Adjacency lists as stored by the `Graph` dataclass of
`chem/structure.py`. -/
abbrev AdjList := List (PyAtom × List (PyAtom × String))

/-- The `Graph` dataclass: bond-typed adjacency plus the ring registry. -/
structure Graph where
  adjacency_list : AdjList
  cycles : List (List PyAtom)
deriving DecidableEq, Repr

/-- `Graph.add_edge`: ensure both endpoints have an entry, then append the
symmetric neighbor records. -/
def add_edge (g : Graph) (atom1 atom2 : PyAtom) (bond_type : String) : Graph :=
  let adj := dictSetDefault g.adjacency_list atom1 []
  let adj := dictSetDefault adj atom2 []
  let adj := dictModify adj atom1 (fun l => l ++ [(atom2, bond_type)])
  let adj := dictModify adj atom2 (fun l => l ++ [(atom1, bond_type)])
  { g with adjacency_list := adj }

/-- Bond label between two atoms in `huckel`: the first neighbor record of
`atom` equal to `next_atom` (the `for ... break` search over
`adjacency_list.get(atom, [])`). -/
def bondBetween (adj : AdjList) (a next_atom : PyAtom) : Option String :=
  match (dictGetD adj a []).find? (fun nb => nb.1 == next_atom) with
  | some nb => some nb.2
  | none => none

/-- Pi-electron contribution of one consecutive pair in `huckel`: 1 for an
aromatic bond, 2 for a double bond, 4 for a triple bond, 0 for any other or
absent bond type. -/
def piContribution (bond_type : Option String) : Int :=
  if bond_type = some ":" then 1
  else if bond_type = some "=" then 2
  else if bond_type = some "#" then 4
  else 0

/-- Pi electrons of one registered ring in `huckel`:
`for i, atom in enumerate(atoms_in_cycle)` pairs each atom with
`atoms_in_cycle[(i + 1) % len(atoms_in_cycle)]` and accumulates the bond
contributions. -/
def cyclePi (adj : AdjList) (c : List PyAtom) : Int :=
  ((List.range c.length).map
    (fun i =>
      match c.get? i, c.get? ((i + 1) % c.length) with
      | some atom, some next_atom => piContribution (bondBetween adj atom next_atom)
      | _, _ => 0)).sum

/-- Claim-side pairing: the consecutive ring pairs, including the wraparound
pair from the last atom back to the first. -/
def wrapPairs : List PyAtom → List (PyAtom × PyAtom)
  | [] => []
  | a :: rest => (a :: rest).zip (rest ++ [a])

/-- Claim-side pi-electron total of a ring: sum of the bond contributions of
the consecutive pairs including the wraparound pair. -/
def specCyclePi (adj : AdjList) (c : List PyAtom) : Int :=
  ((wrapPairs c).map (fun pr => piContribution (bondBetween adj pr.1 pr.2))).sum

/-- `Graph.huckel`: every registered ring must satisfy
`(pi_electrons - 2) % 4 == 0` (the early `return False` loop is the same as
`all`); Python's nonnegative `%` on ints is `Int.emod`. -/
def huckel (g : Graph) : Bool :=
  g.cycles.all (fun c => (cyclePi g.adjacency_list c - 2) % 4 == 0)

/-- Fuel bound passed to the depth-first search: the source recursion is
bounded by the growing `visited` set, so any fuel larger than the number of
atom occurrences in the adjacency structure makes the zero-fuel branch
unreachable. -/
def graphFuel (adj : AdjList) : Nat :=
  adj.length + (adj.map (fun e => e.2.length)).sum + 1

/-- The inner `dfs` of `Graph.get_acyclic_subgraphs`: mark the atom visited,
emit it, then recurse into each not-yet-visited neighbor, threading the
visited set left to right.  The pair carries (visited, atoms emitted by this
call); emission order matches the source's list appends. -/
def dfsGo (adj : AdjList) : Nat → List PyAtom → PyAtom → List PyAtom × List PyAtom
  | 0, visited, _ => (visited, [])
  | fuel + 1, visited, a =>
      (dictGetD adj a []).foldl
        (fun st nb =>
          if st.1.contains nb.1 then st
          else
            let r := dfsGo adj fuel st.1 nb.1
            (r.1, st.2 ++ r.2))
        (visited ++ [a], [a])

/-- The step function folded over the neighbor list by `dfsGo`. -/
def dfsStep (adj : AdjList) (fuel : Nat) (st : List PyAtom × List PyAtom)
    (nb : PyAtom × String) : List PyAtom × List PyAtom :=
  if st.1.contains nb.1 then st
  else
    let r := dfsGo adj fuel st.1 nb.1
    (r.1, st.2 ++ r.2)

/-- Outer loop of `get_acyclic_subgraphs`: start a fresh traversal from every
not-yet-visited key of the adjacency dict. -/
def gasGo (adj : AdjList) : List PyAtom → List PyAtom → List (List PyAtom)
  | [], _ => []
  | k :: rest, visited =>
      if visited.contains k then gasGo adj rest visited
      else
        (dfsGo adj (graphFuel adj) visited k).2 ::
          gasGo adj rest (dfsGo adj (graphFuel adj) visited k).1

/-- `Graph.get_acyclic_subgraphs` (connected components by depth-first
traversal over the adjacency keys). -/
def get_acyclic_subgraphs (g : Graph) : List (List PyAtom) :=
  gasGo g.adjacency_list (g.adjacency_list.map (fun e => e.1)) []

/-- `Graph.check_valency_for_aba`: collect the `BracketAtom` occurrences from
every component, count each one's bonds as the length of its neighbor list,
and require `compute_valency` for all of them (the early `return False` loop
is the same as `all`). -/
def check_valency_for_aba (g : Graph) : Bool :=
  (((get_acyclic_subgraphs g).map (fun sub => sub.filterMap bracketOf)).flatten).all
    (fun atom =>
      compute_valency atom (dictGetD g.adjacency_list (PyAtom.bracket atom) []).length)

/-- The atom appears somewhere as a neighbor record in the adjacency lists. -/
def inNbrs (adj : AdjList) (x : PyAtom) : Prop :=
  ∃ e ∈ adj, ∃ nb ∈ e.2, nb.1 = x

/-- The `ParserException` dataclass (fields as in
`src/validator/parser_manager.py`; the consolidated package imports the same
shape from its `exceptions` module). -/
structure ParserException where
  rule : String
  parameter : String
  message : String
deriving DecidableEq, Repr

/-- Failures that can escape the embedded parser-manager operations: a raised
`ParserException`, or a `KeyError` from `dict.pop` on a missing key. -/
inductive PyErr
  | parserError (e : ParserException)
  | keyError
deriving DecidableEq, Repr

/-- Mutable state of the consolidated `ParserManager` (ring bookkeeping,
current chain, connectivity cursor, and the atoms recorded at ring
openings). -/
structure PMState where
  current_open_rnum : List Int
  current_closed_rnum : List Int
  current_chain : List PyAtom
  last_atom : Option PyAtom
  ring_atoms : List (Int × PyAtom)
deriving DecidableEq, Repr

/-- `ParserManager._reset`: every field back to its empty initial value. -/
def _reset (_pm : PMState) : PMState :=
  { current_open_rnum := []
    current_closed_rnum := []
    current_chain := []
    last_atom := none
    ring_atoms := [] }

/-- Result value of a successful `ParserManager.chain` call (the method
returns the atom or the ring number it handled). -/
inductive ChainResult
  | atomR (a : PyAtom)
  | rnumR (n : Int)
deriving DecidableEq, Repr

/-- `ParserManager.chain` of the consolidated package, acting on the live
graph (`chem.mol_graph`) and the manager state.  Atom form: bond the new atom
to the previous one (single bond when none given) and advance the cursor.
Ring-number form: a number in the open set is closed (pop the recorded
opening atom - a `KeyError` if none was recorded - bond it to the current
atom with the explicit bond, else aromatic when both endpoints are aromatic,
else single, and move the number from open to closed); any other number is
appended to the open set, recording the current atom when one exists.
Neither argument: `ParserException`. -/
def chain (g : Graph) (pm : PMState) (bond : Option String) (atom : Option PyAtom)
    (rnum : Option Int) : Except PyErr (Graph × PMState × ChainResult) :=
  match atom with
  | some a =>
      let g2 :=
        match pm.last_atom with
        | some la =>
            add_edge g la a
              (match bond with
               | some b => b
               | none => "-")
        | none => g
      Except.ok (g2, { pm with last_atom := some a }, ChainResult.atomR a)
  | none =>
      match rnum with
      | some n =>
          if pm.current_open_rnum.contains n then
            match dictPop pm.ring_atoms n with
            | none => Except.error PyErr.keyError
            | some (ring_opening_atom, ring_atoms2) =>
                let g2 :=
                  match pm.last_atom with
                  | some la =>
                      add_edge g la ring_opening_atom
                        (match bond with
                         | some b => b
                         | none =>
                             if pyAromatic la && pyAromatic ring_opening_atom then ":"
                             else "-")
                  | none => g
                Except.ok (g2,
                  { pm with
                    ring_atoms := ring_atoms2
                    current_open_rnum := pm.current_open_rnum.erase n
                    current_closed_rnum := pm.current_closed_rnum ++ [n] },
                  ChainResult.rnumR n)
          else
            let ring_atoms2 :=
              match pm.last_atom with
              | some la => dictInsert pm.ring_atoms n la
              | none => pm.ring_atoms
            Except.ok (g,
              { pm with
                ring_atoms := ring_atoms2
                current_open_rnum := pm.current_open_rnum ++ [n] },
              ChainResult.rnumR n)
      | none =>
          Except.error (PyErr.parserError
            { rule := "chain", parameter := "bond, atom, rnum",
              message := "Invalid chain rule combination" })

/-- `validate_smiles` of the consolidated package
(`smiles_checker/validator/yacc.py`).  The wrapped tokenize-and-parse run is
modelled by its outcome.  On success the source calls `pm._reset()` and
returns `(True, None)`; in the `except` branch it executes `raise e` - the
`return False, e` after it is unreachable - so the error propagates and the
manager state is left untouched.  No reset happens before the parse. -/
def validate_smiles (parse_outcome : Except PyErr Unit) (pm : PMState) :
    PMState × Except PyErr (Bool × Option PyErr) :=
  match parse_outcome with
  | Except.ok _ => (_reset pm, Except.ok (true, none))
  | Except.error e => (pm, Except.error e)

/-- Modelled from the spec: the periodic-table data file
(`periodic-table-lookup.json`) is not part of the sources under `src/`; the
stored electron configuration of neon is `[He] 2s2 2p6` per the data-asset
schema of the spec and the repository tests (which assert an s-subshell total
of 3 for the neon anion, i.e. 2s2 plus the new 3s1).  The chemistry facade's
`BracketAtom` factory strips the `[He] ` shorthand with `str.replace` before
construction, leaving this string. -/
def ne_configuration : String := "2s2 2p6"

/-- Parsed subshell mapping of neutral neon. -/
def ne_subshells : List Entry := _parse_electron_configuration ne_configuration

/-- `chemistry.BracketAtom("Ne", charge=-1)`: the neon anion of the spec's
ion-redistribution example. -/
def neon_anion : BracketAtom :=
  mkBracketAtom "Ne" ne_configuration false none (some (-1)) none none none

/-- A fresh, empty molecular graph. -/
def emptyGraph : Graph := { adjacency_list := [], cycles := [] }

/-- An empty parser-manager state, as after `_reset`. -/
def pm_empty : PMState :=
  { current_open_rnum := [], current_closed_rnum := [], current_chain := [],
    last_atom := none, ring_atoms := [] }

/-- A sample diagnostic raised during a failing parse. -/
def sample_error : PyErr :=
  PyErr.parserError
    { rule := "validate_branch", parameter := "1", message := "Unclosed ring numbers" }

/-- Manager state after ring number 1 has been opened and closed once
(`C1CC1...`): 1 sits in the closed set, the open set is empty. -/
def closed_ring_state : PMState :=
  { current_open_rnum := [], current_closed_rnum := [1], current_chain := [],
    last_atom := none, ring_atoms := [] }

/-- A plain carbon occurrence (`Atom("C")`, default configuration). -/
def carbon : PyAtom := PyAtom.plain (mkAtom "C" "" false)

/-- A plain nitrogen occurrence. -/
def nitrogen : PyAtom := PyAtom.plain (mkAtom "N" "" false)

/-- Manager state abandoned by a failed parse: ring 1 still open, a chain and
cursor left behind. -/
def pm_after_failed_parse : PMState :=
  { current_open_rnum := [1], current_closed_rnum := [], current_chain := [carbon],
    last_atom := some carbon, ring_atoms := [(1, carbon)] }

/-- Manager state about to close ring 1: the ring is open, nitrogen was
recorded at the opening, carbon is the current atom. -/
def closing_state : PMState :=
  { current_open_rnum := [1], current_closed_rnum := [], current_chain := [],
    last_atom := some carbon, ring_atoms := [(1, nitrogen)] }

/-- A two-atom graph of plain (non-bracket) atoms bonded to each other. -/
def plainGraph : Graph :=
  { adjacency_list := [(carbon, [(nitrogen, "-")]), (nitrogen, [(carbon, "-")])],
    cycles := [] }

/-- Wraparound indexing: position `i` of the rotated list matches position
`(i + 1) mod length` of the original list. -/
theorem wrap_index (rest : List PyAtom) (a : PyAtom) (i : Nat)
    (h : i < rest.length + 1) :
    (rest ++ [a]).get? i = (a :: rest).get? ((i + 1) % (rest.length + 1)) := by
  rcases Nat.lt_or_ge i rest.length with hi | hi
  · rw [List.get?_append hi, Nat.mod_eq_of_lt (by omega)]
    rfl
  · have hi2 : i = rest.length := by omega
    subst hi2
    rw [List.get?_concat_length, Nat.mod_self]
    rfl

/-- A zipped pairwise sum rewritten as an index-driven sum over the range of
positions. -/
theorem zip_range_sum (adj : AdjList) (l1 l2 : List PyAtom)
    (h : l1.length = l2.length) :
    ((l1.zip l2).map (fun pr => piContribution (bondBetween adj pr.1 pr.2))).sum
      = ((List.range l1.length).map
          (fun i =>
            match l1.get? i, l2.get? i with
            | some x, some y => piContribution (bondBetween adj x y)
            | _, _ => 0)).sum := by
  induction l1 generalizing l2 with
  | nil => simp
  | cons x xs ih =>
      cases l2 with
      | nil => simp at h
      | cons y ys =>
          have h2 : xs.length = ys.length := by
            simpa using h
          simp only [List.zip_cons_cons, List.map_cons, List.sum_cons,
            List.length_cons, List.range_succ_eq_map, List.map_map]
          rw [ih ys h2]
          rfl

/-- The indexed pairing of `huckel` equals the zip-with-rotation pairing of
the claim, ring by ring. -/
theorem cyclePi_eq_specCyclePi (adj : AdjList) (c : List PyAtom) :
    cyclePi adj c = specCyclePi adj c := by
  cases c with
  | nil => simp [cyclePi, specCyclePi, wrapPairs]
  | cons a rest =>
      unfold cyclePi specCyclePi wrapPairs
      rw [zip_range_sum adj (a :: rest) (rest ++ [a]) (by simp)]
      apply congrArg List.sum
      apply List.map_congr_left
      intro i hi
      have hi2 : i < rest.length + 1 := by
        simpa using List.mem_range.mp hi
      rw [List.length_cons, wrap_index rest a i hi2]

/-- C2: for every molecular graph, `huckel` returns true iff every registered
ring passes the 4n+2 test, where a ring's pi electrons accumulate over its
consecutive pairs (including the wraparound pair) with contributions 1 for an
aromatic bond, 2 for a double bond, 4 for a triple bond and 0 otherwise; with
no registered rings the universal quantification is vacuous and `huckel` is
true. -/
theorem huckel_iff (g : Graph) :
    huckel g = true
      ↔ ∀ c ∈ g.cycles, (specCyclePi g.adjacency_list c - 2) % 4 = 0 := by
  unfold huckel
  simp only [List.all_eq_true, cyclePi_eq_specCyclePi, beq_iff_eq]

/-- C3: `compute_valency` holds exactly when the effective valence electron
count (valence electrons plus the optional hydrogen count, 0 when absent,
plus the bond count) is exactly 2 at valency layer 1 and exactly 8 at any
other layer; the embedded function is pure, as is the source method, which
only reads fields. -/
theorem compute_valency_iff (ba : BracketAtom) (bonds : Int) :
    compute_valency ba bonds = true
      ↔ ba.base.electrons_in_valency + ba.hidrogens.getD 0 + bonds
          = (if ba.base.valency_layer = 1 then 2 else 8) := by
  unfold compute_valency _octate_rule
  cases h : ba.hidrogens <;>
    simp [Option.getD, h] <;>
    split <;>
    simp [beq_iff_eq]

/-- C1: in the consolidated `validate_smiles`, a failing parse does not
produce the documented `(False, diagnostic)` pair: the `except` branch
re-raises, so the diagnostic escapes to the caller as an error. -/
theorem validate_smiles_propagates_failure :
    (validate_smiles (Except.error sample_error) pm_empty).2
      = Except.error sample_error := rfl

/-- C6: the consolidated `validate_smiles` resets the manager state only on
the success path; after a failing parse the polluted state (here an open ring
number 1) survives unchanged, so sequential calls on the shared manager are
not independent. -/
theorem validate_smiles_keeps_state_on_failure :
    (validate_smiles (Except.error sample_error) pm_after_failed_parse).1
        = pm_after_failed_parse
      ∧ pm_after_failed_parse.current_open_rnum ≠ [] := by
  exact ⟨rfl, by decide⟩

/-- C5: presenting ring number 1 again after it has been opened and closed
once does not fail: `chain` returns successfully and silently re-opens the
number (1 is appended to the open set while it still sits in the closed
set); no `ParserException` with message `Ring number already closed` is
raised anywhere in this code path. -/
theorem chain_reopens_closed_ring :
    chain emptyGraph closed_ring_state none none (some 1)
      = Except.ok (emptyGraph,
          { closed_ring_state with current_open_rnum := [1] },
          ChainResult.rnumR 1) := rfl

/-- C7: closing an open ring number while a last atom exists adds the graph
edge between the closing atom and the atom recorded at the opening, labelled
with the explicitly supplied bond when there is one, otherwise an aromatic
bond when both endpoints are aromatic, otherwise a single bond; the number
leaves the open set and is appended to the closed set. -/
theorem chain_ring_close_spec (g : Graph) (pm : PMState) (bond : Option String)
    (n : Int) (la ra : PyAtom) (rest : List (Int × PyAtom))
    (hopen : pm.current_open_rnum.contains n = true)
    (hpop : dictPop pm.ring_atoms n = some (ra, rest))
    (hlast : pm.last_atom = some la) :
    chain g pm bond none (some n)
      = Except.ok
          (add_edge g la ra
            (bond.getD (if pyAromatic la && pyAromatic ra then ":" else "-")),
           { pm with
             ring_atoms := rest
             current_open_rnum := pm.current_open_rnum.erase n
             current_closed_rnum := pm.current_closed_rnum ++ [n] },
           ChainResult.rnumR n) := by
  have hmem : n ∈ pm.current_open_rnum := by
    simpa using hopen
  cases bond <;> simp [chain, hopen, hmem, hpop, hlast, Option.getD]

/-- Witness for C7: with ring 1 open on the `closing_state` (nitrogen
recorded at the opening, carbon as the current atom, no explicit bond), the
closure produces the single-bond edge and moves 1 to the closed set. -/
theorem chain_ring_close_spec_witness :
    chain emptyGraph closing_state none none (some 1)
      = Except.ok
          (add_edge emptyGraph carbon nitrogen
            ((none : Option String).getD
              (if pyAromatic carbon && pyAromatic nitrogen then ":" else "-")),
           { closing_state with
             ring_atoms := []
             current_open_rnum := closing_state.current_open_rnum.erase 1
             current_closed_rnum := closing_state.current_closed_rnum ++ [1] },
           ChainResult.rnumR 1) :=
  chain_ring_close_spec emptyGraph closing_state none 1 carbon nitrogen []
    (by decide) (by decide) rfl

/-- C8 counterexample: in the consolidated atomic model, `Atom` equality is
the dataclass comparison over all fields, not symbol alone - two carbon
atoms that differ only in the aromatic flag share the symbol yet compare
unequal. -/
theorem atom_eq_not_symbol_only :
    (mkAtom "C" "" false).symbol = (mkAtom "C" "" true).symbol
      ∧ pyAtomEq (PyAtom.plain (mkAtom "C" "" false))
          (PyAtom.plain (mkAtom "C" "" true)) = false := by
  exact ⟨rfl, by decide⟩

/-- C8 amended: equality of constructed base atoms holds exactly when the
symbol, the configuration string and the aromatic flag all agree (the
derived shell data follow from the configuration), and an `Atom` never
compares equal to a `BracketAtom` in either direction. -/
theorem atom_eq_characterization :
    (∀ (s1 s2 c1 c2 : String) (ar1 ar2 : Bool),
        pyAtomEq (PyAtom.plain (mkAtom s1 c1 ar1)) (PyAtom.plain (mkAtom s2 c2 ar2))
              = true
          ↔ (s1 = s2 ∧ c1 = c2 ∧ ar1 = ar2))
      ∧ (∀ (a : Atom) (b : BracketAtom),
          pyAtomEq (PyAtom.plain a) (PyAtom.bracket b) = false
            ∧ pyAtomEq (PyAtom.bracket b) (PyAtom.plain a) = false) := by
  constructor
  · intro s1 s2 c1 c2 ar1 ar2
    simp only [pyAtomEq, atomEq, mkAtom, decide_eq_true_eq, Atom.mk.injEq]
    constructor
    · rintro ⟨hs, -, -, -, -, hc, har, -⟩
      exact ⟨hs, hc, har⟩
    · rintro ⟨rfl, rfl, rfl⟩
      simp
  · intro a b
    exact ⟨rfl, rfl⟩

/-- C10: `BracketAtom` equality stores and compares the optional annotation
values themselves, so an absent hydrogen count (or charge) never equals an
explicit zero: atoms built with the field left absent are unequal to the
same construction with the field set to 0. -/
theorem bracket_eq_absent_ne_zero (s cfg : String) (ar : Bool)
    (h c i ch mm : Option Int) :
    bracketAtomEq (mkBracketAtom s cfg ar h none i ch mm)
        (mkBracketAtom s cfg ar h (some 0) i ch mm) = false
      ∧ bracketAtomEq (mkBracketAtom s cfg ar none c i ch mm)
          (mkBracketAtom s cfg ar (some 0) c i ch mm) = false := by
  constructor
  · simp [mkBracketAtom, bracketAtomEq]
  · cases c with
    | none => simp [mkBracketAtom, bracketAtomEq]
    | some cv => simp [mkBracketAtom, bracketAtomEq]

instance : IsTotal Entry keyLe :=
  ⟨fun a b => by
    unfold keyLe
    rcases Nat.lt_trichotomy a.1.1 b.1.1 with h | h | h
    · exact Or.inl (Or.inl h)
    · rcases Nat.le_total (subshellIdx a.1.2) (subshellIdx b.1.2) with hs | hs
      · exact Or.inl (Or.inr ⟨h, hs⟩)
      · exact Or.inr (Or.inr ⟨h.symm, hs⟩)
    · exact Or.inr (Or.inl h)⟩

instance : IsTrans Entry keyLe :=
  ⟨fun a b c hab hbc => by
    unfold keyLe at *
    rcases hab with h | ⟨h1, h2⟩ <;> rcases hbc with h' | ⟨h1', h2'⟩
    · exact Or.inl (h.trans h')
    · exact Or.inl (h1' ▸ h)
    · exact Or.inl (h1 ▸ h')
    · exact Or.inr ⟨h1.trans h1', h2.trans h2'⟩⟩

/-- Each principal quantum number in a mapping is bounded by `maxN`. -/
theorem le_maxN (m : List Entry) (e : Entry) (he : e ∈ m) : e.1.1 ≤ maxN m := by
  induction m with
  | nil => cases he
  | cons x rest ih =>
      rcases List.mem_cons.mp he with rfl | hrest
      · exact Nat.le_max_left _ _
      · exact (ih hrest).trans (Nat.le_max_right _ _)

/-- `maxN` of a nonempty mapping is attained by one of its entries. -/
theorem maxN_mem (m : List Entry) (hm : m ≠ []) : ∃ e ∈ m, maxN m = e.1.1 := by
  induction m with
  | nil => exact absurd rfl hm
  | cons x rest ih =>
      cases rest with
      | nil => exact ⟨x, by simp, by simp [maxN]⟩
      | cons y ys =>
          obtain ⟨e, he, hmax⟩ := ih (by simp)
          rcases Nat.le_total x.1.1 (maxN (y :: ys)) with hle | hge
          · refine ⟨e, by simp [List.mem_cons.mp he], ?_⟩
            show max x.1.1 (maxN (y :: ys)) = e.1.1
            rw [Nat.max_eq_right hle, hmax]
          · refine ⟨x, by simp, ?_⟩
            show max x.1.1 (maxN (y :: ys)) = x.1.1
            exact Nat.max_eq_left hge

/-- `maxN` is invariant under permutation of the entries. -/
theorem maxN_perm (l l' : List Entry) (h : l.Perm l') : maxN l = maxN l' := by
  by_cases hl : l = []
  · subst hl
    rw [List.Perm.eq_nil h.symm]
  · have hl' : l' ≠ [] := by
      intro h0
      subst h0
      exact hl (List.Perm.eq_nil h)
    obtain ⟨e, he, hmax⟩ := maxN_mem l hl
    obtain ⟨e', he', hmax'⟩ := maxN_mem l' hl'
    apply Nat.le_antisymm
    · rw [hmax]
      exact le_maxN l' e (h.mem_iff.mp he)
    · rw [hmax']
      exact le_maxN l e' (h.mem_iff.mpr he')

/-- The last entry of a `keyLe`-sorted nonempty list carries the maximal
principal quantum number. -/
theorem sorted_getLast_maxN :
    ∀ (l : List Entry), List.Sorted keyLe l → l ≠ [] →
      ∃ e, l.getLast? = some e ∧ e.1.1 = maxN l := by
  intro l
  induction l with
  | nil => exact fun _ h => absurd rfl h
  | cons x rest ih =>
      intro hs _
      rcases List.sorted_cons.mp hs with ⟨hx, hs'⟩
      cases rest with
      | nil =>
          refine ⟨x, rfl, ?_⟩
          show x.1.1 = max x.1.1 (maxN [])
          simp [maxN]
      | cons y ys =>
          obtain ⟨e, hlast, hmax⟩ := ih hs' (by simp)
          refine ⟨e, ?_, ?_⟩
          · rw [List.getLast?_cons_cons]
            exact hlast
          · have h1 : x.1.1 ≤ y.1.1 := by
              have hxy := hx y (by simp)
              unfold keyLe at hxy
              rcases hxy with h | ⟨h, -⟩ <;> omega
            have h2 : y.1.1 ≤ maxN (y :: ys) := le_maxN _ y (by simp)
            have habs : maxN (x :: y :: ys) = maxN (y :: ys) := by
              show max x.1.1 (maxN (y :: ys)) = maxN (y :: ys)
              omega
            rw [habs, hmax]

/-- With nothing left to add, the claim-side top-up leaves every
capacity-respecting subshell unchanged. -/
theorem specFill_zero (l : List Entry)
    (hwf : ∀ e ∈ l, e.2 ≤ _max_electrons_in_subshell e.1.2) :
    specFillExisting l 0 = (l, 0) := by
  induction l with
  | nil => rfl
  | cons e rest ih =>
      have he : e.2 ≤ _max_electrons_in_subshell e.1.2 := hwf e (by simp)
      have hrest : ∀ x ∈ rest, x.2 ≤ _max_electrons_in_subshell x.1.2 :=
        fun x hx => hwf x (by simp [hx])
      simp only [specFillExisting]
      rw [show min (e.2 + 0) (_max_electrons_in_subshell e.1.2) = e.2 by omega]
      rw [show (0 : Int) - (e.2 - e.2) = 0 by omega]
      rw [ih hrest]

/-- The top-up loop of the source equals the claim-side top-up on any list of
capacity-respecting subshells. -/
theorem fill_eq :
    ∀ (l : List Entry) (k : Int), 0 ≤ k →
      (∀ e ∈ l, e.2 ≤ _max_electrons_in_subshell e.1.2) →
      fillExisting l k = specFillExisting l k := by
  intro l
  induction l with
  | nil => intro k _ _; rfl
  | cons e rest ih =>
      intro k hk hwf
      have he : e.2 ≤ _max_electrons_in_subshell e.1.2 := hwf e (by simp)
      have hrest : ∀ x ∈ rest, x.2 ≤ _max_electrons_in_subshell x.1.2 :=
        fun x hx => hwf x (by simp [hx])
      by_cases hk0 : k = 0
      · subst hk0
        rw [specFill_zero (e :: rest) hwf]
        simp [fillExisting]
      · have hguard : (k == 0) = false := by
          simpa using hk0
        simp only [fillExisting, specFillExisting, hguard, Bool.false_eq_true,
          if_false]
        have hcount :
            min (e.2 + k) (_max_electrons_in_subshell e.1.2)
              = e.2 + min k (_max_electrons_in_subshell e.1.2 - e.2) := by
          omega
        have harg :
            k - (e.2 + min k (_max_electrons_in_subshell e.1.2 - e.2) - e.2)
              = k - min k (_max_electrons_in_subshell e.1.2 - e.2) := by
          omega
        have hk2 : 0 ≤ k - min k (_max_electrons_in_subshell e.1.2 - e.2) := by
          have := min_le_left k (_max_electrons_in_subshell e.1.2 - e.2)
          omega
        rw [hcount, harg, ih _ hk2 hrest]

/-- The top-up loop never leaves a negative remainder. -/
theorem fill_snd_nonneg :
    ∀ (l : List Entry) (k : Int), 0 ≤ k → 0 ≤ (fillExisting l k).2 := by
  intro l
  induction l with
  | nil => intro k hk; exact hk
  | cons e rest ih =>
      intro k hk
      by_cases hk0 : k = 0
      · subst hk0
        simp [fillExisting]
      · have hguard : (k == 0) = false := by
          simpa using hk0
        simp only [fillExisting, hguard, Bool.false_eq_true, if_false]
        apply ih
        have := min_le_left k (_max_electrons_in_subshell e.1.2 - e.2)
        omega

/-- The new-shell loop equals its closed form: shell `i` sits at
`n + 1 + i` and holds `min(remaining, 2)` electrons. -/
theorem openGo_eq_specNewShells :
    ∀ (j n : Nat), openGo n j = specNewShells n j := by
  intro j
  induction j using Nat.strong_induction_on with
  | _ j ih =>
      intro n
      match j with
      | 0 => simp [openGo, specNewShells]
      | 1 =>
          have hm1 : min (1 - 2 * 0) 2 = 1 := by decide
          simp [openGo, specNewShells, List.range_succ, hm1]
      | j + 2 =>
          have hrange : (j + 2 + 1) / 2 = (j + 1) / 2 + 1 := by omega
          simp only [specNewShells, hrange, List.range_succ_eq_map, List.map_cons,
            List.map_map]
          rw [openGo]
          congr 1
          · have h0 : j + 2 - 2 * 0 = j + 2 := by omega
            have h1 : min (j + 2) 2 = 2 := by omega
            simp [h0, h1]
          · rw [ih j (by omega) (n + 1)]
            unfold specNewShells
            apply List.map_congr_left
            intro i hi
            have h1 : n + 1 + (i + 1) = n + 1 + 1 + i := by omega
            have h2 : j + 2 - 2 * (i + 1) = j - 2 * i := by omega
            simp [Function.comp_def, h1, h2]

/-- The source's `Int`-valued new-shell loop in terms of the closed form. -/
theorem openNewShells_eq_spec (n : Nat) (k : Int) :
    openNewShells n k = specNewShells n k.toNat := by
  unfold openNewShells
  exact openGo_eq_specNewShells k.toNat n

/-- Electron addition of the source equals the claim-side description: fill
the existing subshells in ascending order up to their capacities, then open
new `s`-only shells, two electrons each, starting right above the outermost
existing layer. -/
theorem addElectrons_eq_spec (m : List Entry) (k : Int) (hm : m ≠ [])
    (hk : 0 ≤ k)
    (hwf : ∀ e ∈ m, e.2 ≤ _max_electrons_in_subshell e.1.2) :
    addElectrons m k = specAddElectrons m k := by
  unfold addElectrons specAddElectrons
  have hperm := List.perm_insertionSort keyLe m
  have hwf2 : ∀ e ∈ List.insertionSort keyLe m,
      e.2 ≤ _max_electrons_in_subshell e.1.2 :=
    fun e he => hwf e (hperm.subset he)
  rw [fill_eq _ k hk hwf2]
  have hnonneg : 0 ≤ (specFillExisting (List.insertionSort keyLe m) k).2 := by
    rw [← fill_eq _ k hk hwf2]
    exact fill_snd_nonneg _ k hk
  by_cases hpos : 0 < (specFillExisting (List.insertionSort keyLe m) k).2
  · rw [if_pos hpos]
    have hne : List.insertionSort keyLe m ≠ [] := by
      intro h0
      apply hm
      rw [h0] at hperm
      exact List.Perm.eq_nil hperm.symm
    obtain ⟨e, hlast, hmaxs⟩ :=
      sorted_getLast_maxN _ (List.sorted_insertionSort keyLe m) hne
    have hmm : e.1.1 = maxN m := by
      rw [hmaxs]
      exact maxN_perm _ _ hperm
    rw [hlast]
    show (specFillExisting (List.insertionSort keyLe m) k).1
          ++ openNewShells e.1.1 (specFillExisting (List.insertionSort keyLe m) k).2
        = (specFillExisting (List.insertionSort keyLe m) k).1
          ++ specNewShells (maxN m)
              (specFillExisting (List.insertionSort keyLe m) k).2.toNat
    rw [openNewShells_eq_spec, hmm]
  · rw [if_neg hpos]
    have h0 : (specFillExisting (List.insertionSort keyLe m) k).2 = 0 := by
      omega
    rw [h0]
    simp [specNewShells]

/-- C4: constructing a `BracketAtom` with a negative charge redistributes by
first topping up the existing subshells innermost-to-outermost (ascending
principal quantum number, then s before p before d before f) up to the
capacities 2/6/10/14, then opening new shells one at a time at the next
unused principal quantum numbers, each an `s` subshell absorbing at most 2
electrons; in particular the neon anion ends with a new third shell holding
exactly one electron in an `s` subshell, `valency_layer` 3, while neutral
neon only occupies layer 2. -/
theorem bracket_anion_redistribution (s cfg : String) (ar : Bool)
    (h i ch mm : Option Int) (c : Int) (hc : c < 0)
    (hm : _parse_electron_configuration cfg ≠ [])
    (hwf : ∀ e ∈ _parse_electron_configuration cfg,
      e.2 ≤ _max_electrons_in_subshell e.1.2) :
    (mkBracketAtom s cfg ar h (some c) i ch mm).base.subshell_electrons
        = specAddElectrons (_parse_electron_configuration cfg) (-c)
      ∧ get_electrons_in_specific_subshell neon_anion.base 3 Subshell.s = 1
      ∧ neon_anion.base.valency_layer = 3
      ∧ (mkAtom "Ne" ne_configuration false).layers = [2] := by
  refine ⟨?_, by decide, by decide, by decide⟩
  simp only [mkBracketAtom, mkAtom]
  rw [if_neg (by omega : ¬ 0 < c), if_pos hc]
  exact addElectrons_eq_spec _ _ hm (by omega) hwf

/-- Witness for C4 at the neon anion: configuration `2s2 2p6`, charge `-1`. -/
theorem bracket_anion_redistribution_witness :
    (mkBracketAtom "Ne" ne_configuration false none (some (-1)) none none
          none).base.subshell_electrons
        = specAddElectrons (_parse_electron_configuration ne_configuration) (-(-1))
      ∧ get_electrons_in_specific_subshell neon_anion.base 3 Subshell.s = 1
      ∧ neon_anion.base.valency_layer = 3
      ∧ (mkAtom "Ne" ne_configuration false).layers = [2] :=
  bracket_anion_redistribution "Ne" ne_configuration false none none none none
    (-1) (by decide) (by decide) (by decide)

/-- Unfolding of one successful `dfsGo` step. -/
theorem dfsGo_succ (adj : AdjList) (fuel : Nat) (visited : List PyAtom)
    (a : PyAtom) :
    dfsGo adj (fuel + 1) visited a
      = (dictGetD adj a []).foldl (dfsStep adj fuel) (visited ++ [a], [a]) := rfl

/-- Every record returned by the adjacency lookup is a neighbor occurrence of
the adjacency structure. -/
theorem dictGetD_inNbrs (adj : AdjList) (a : PyAtom) :
    ∀ nb ∈ dictGetD adj a [], inNbrs adj nb.1 := by
  intro nb hnb
  unfold dictGetD at hnb
  cases hfind : adj.find? (fun e => e.1 == a) with
  | none =>
      rw [hfind] at hnb
      cases hnb
  | some e =>
      rw [hfind] at hnb
      exact ⟨e, List.mem_of_find?_eq_some hfind, nb, hnb, rfl⟩

/-- Atoms emitted by the traversal fold extend the already-emitted ones only
with neighbor occurrences (given that the recursive traversal does so). -/
theorem foldl_dfsStep_mem (adj : AdjList) (fuel : Nat)
    (ihGo : ∀ visited b x, x ∈ (dfsGo adj fuel visited b).2 → x = b ∨ inNbrs adj x) :
    ∀ (l : List (PyAtom × String)) (st : List PyAtom × List PyAtom) (x : PyAtom),
      (∀ nb ∈ l, inNbrs adj nb.1) →
      x ∈ (l.foldl (dfsStep adj fuel) st).2 →
      x ∈ st.2 ∨ inNbrs adj x := by
  intro l
  induction l with
  | nil =>
      intro st x _ hx
      exact Or.inl hx
  | cons nb rest ih =>
      intro st x hl hx
      rw [List.foldl_cons] at hx
      have hrest : ∀ p ∈ rest, inNbrs adj p.1 := fun p hp => hl p (by simp [hp])
      rcases ih (dfsStep adj fuel st nb) x hrest hx with hmem | hn
      · unfold dfsStep at hmem
        by_cases hc : st.1.contains nb.1 = true
        · rw [if_pos hc] at hmem
          exact Or.inl hmem
        · rw [if_neg hc] at hmem
          rcases List.mem_append.mp hmem with h1 | h2
          · exact Or.inl h1
          · rcases ihGo st.1 nb.1 x h2 with rfl | hn2
            · exact Or.inr (hl nb (by simp))
            · exact Or.inr hn2
      · exact Or.inr hn

/-- Every atom emitted by the depth-first traversal is its start atom or a
neighbor occurrence of the adjacency structure. -/
theorem dfsGo_mem (adj : AdjList) :
    ∀ (fuel : Nat) (visited : List PyAtom) (a x : PyAtom),
      x ∈ (dfsGo adj fuel visited a).2 → x = a ∨ inNbrs adj x := by
  intro fuel
  induction fuel with
  | zero =>
      intro visited a x hx
      simp [dfsGo] at hx
  | succ fuel ih =>
      intro visited a x hx
      rw [dfsGo_succ] at hx
      rcases foldl_dfsStep_mem adj fuel ih _ _ x (dictGetD_inNbrs adj a) hx
        with h1 | h2
      · exact Or.inl (List.mem_singleton.mp h1)
      · exact Or.inr h2

/-- Every atom of every component list is an adjacency key or a neighbor
occurrence. -/
theorem gasGo_mem (adj : AdjList) :
    ∀ (keys visited : List PyAtom) (sub : List PyAtom) (x : PyAtom),
      sub ∈ gasGo adj keys visited → x ∈ sub → x ∈ keys ∨ inNbrs adj x := by
  intro keys
  induction keys with
  | nil =>
      intro visited sub x hsub _
      simp [gasGo] at hsub
  | cons kk rest ih =>
      intro visited sub x hsub hx
      simp only [gasGo] at hsub
      by_cases hc : visited.contains kk = true
      · rw [if_pos hc] at hsub
        rcases ih _ sub x hsub hx with h | h
        · exact Or.inl (by simp [h])
        · exact Or.inr h
      · rw [if_neg hc] at hsub
        rcases List.mem_cons.mp hsub with heq | htail
        · subst heq
          rcases dfsGo_mem adj _ _ _ x hx with rfl | h
          · exact Or.inl (by simp)
          · exact Or.inr h
        · rcases ih _ sub x htail hx with h | h
          · exact Or.inl (by simp [h])
          · exact Or.inr h

/-- A list of non-bracket atom occurrences contributes no bracket atoms. -/
theorem filterMap_bracketOf_nil (l : List PyAtom)
    (h : ∀ x ∈ l, isBracketAtom x = false) : l.filterMap bracketOf = [] := by
  rw [List.filterMap_eq_nil_iff]
  intro x hx
  have hb := h x hx
  cases x with
  | plain a => rfl
  | bracket b => simp [isBracketAtom] at hb

/-- C9: the graph-wide bracket-atom valency check inspects only
`BracketAtom` occurrences; on a graph whose atoms (keys and neighbor
records) are all plain atoms, `check_valency_for_aba` is true regardless of
any bond counts. -/
theorem check_valency_aba_plain (g : Graph)
    (h : ∀ e ∈ g.adjacency_list,
      isBracketAtom e.1 = false ∧ ∀ nb ∈ e.2, isBracketAtom nb.1 = false) :
    check_valency_for_aba g = true := by
  unfold check_valency_for_aba
  have hplain : ∀ sub ∈ get_acyclic_subgraphs g, ∀ x ∈ sub,
      isBracketAtom x = false := by
    intro sub hsub x hx
    unfold get_acyclic_subgraphs at hsub
    rcases gasGo_mem g.adjacency_list _ [] sub x hsub hx with hk | hn
    · rcases List.mem_map.mp hk with ⟨e, he, rfl⟩
      exact (h e he).1
    · obtain ⟨e, he, nb, hnb, rfl⟩ := hn
      exact (h e he).2 nb hnb
  have hnil :
      ((get_acyclic_subgraphs g).map (fun sub => sub.filterMap bracketOf)).flatten
        = [] := by
    rw [List.flatten_eq_nil_iff]
    intro l hl
    rcases List.mem_map.mp hl with ⟨sub, hsub, rfl⟩
    exact filterMap_bracketOf_nil sub (hplain sub hsub)
  rw [hnil]
  rfl

/-- Witness for C9: the two-atom plain graph passes the bracket-atom valency
check. -/
theorem check_valency_aba_plain_witness :
    check_valency_for_aba plainGraph = true :=
  check_valency_aba_plain plainGraph (by decide)

end Smiles
